import Mathlib

/-!
Verification of the chunked parallel normalization engine of
`tomopy/prep/normalize.py` (functions `normalize`, `_normalize` and
`normalize_nf`), via a shallow embedding.

Modelling conventions:
* floating-point samples are modelled as exact rationals (`ℚ`); the float
  literal `1e-6` of the source is the rational `1/1000000`;
* a 2-D frame is a list of rows of rationals, a volume a list of frames;
* the in-place mutation of the shared tomogram array by `_normalize` is
  modelled as explicit state passing over `NState` (the shared array plus
  the read-only reduced flat and dark frames);
* fallible numpy reductions (`np.mean` / `np.median` on an empty stack)
  return `Option`, and `normalize` / `normalize_nf` propagate the failure;
* Python `//` on possibly negative ints is `Int.fdiv` (floor division);
* the external work dispatcher `tomopy.util.mproc.distribute_jobs` is not
  part of the repository sources; it is modelled from the spec (see
  `distribute_jobs` below).
-/

namespace Tomopy

/-- A 2-D frame: rows of rational samples. -/
abbrev Frame : Type := List (List ℚ)

/-- Elementwise map over a frame. -/
def map2 (f : ℚ → ℚ) (a : Frame) : Frame :=
  a.map (fun row => row.map f)

/-- Elementwise combination of two frames. -/
def zip2 (f : ℚ → ℚ → ℚ) (a b : Frame) : Frame :=
  List.zipWith (List.zipWith f) a b

/-- Elementwise subtraction, `a - b` on frames. -/
def subFrame (a b : Frame) : Frame :=
  zip2 (fun x y => x - y) a b

/-- The zero-division guard constant of `_normalize` (source literal `1e-6`). -/
def EPS : ℚ := 1 / 1000000

/-- One denominator element after the guard `denom[denom == 0] = 1e-6`
(line 120 of the source). -/
def guardPixel (x : ℚ) : ℚ :=
  if x = 0 then EPS else x

/-- The guarded denominator `denom = flat - dark; denom[denom == 0] = 1e-6`
(lines 119-120); built in a fresh array, `flat` and `dark` are not touched. -/
def denomOf (flat dark : Frame) : Frame :=
  map2 guardPixel (subFrame flat dark)

/-- One element of the cutoff clamp `proj[proj > cutoff] = cutoff` (line 125). -/
def clampPixel (c v : ℚ) : ℚ :=
  if c < v then c else v

/-- The per-frame body of `_normalize`'s loop (lines 123-126):
`proj = np.true_divide(tomo[m] - dark, denom)`, then the optional clamp. -/
def normFrame (denom dark : Frame) (cutoff : Option ℚ) (proj : Frame) : Frame :=
  match cutoff with
  | none => zip2 (fun x y => x / y) (subFrame proj dark) denom
  | some c => map2 (clampPixel c) (zip2 (fun x y => x / y) (subFrame proj dark) denom)

/-- State of one `_normalize` call: the shared tomogram array
(`mproc.SHARED_ARRAY`) plus the reduced flat and dark reference frames. -/
structure NState where
  tomo : List Frame
  flat : Frame
  dark : Frame

/-- One iteration of `_normalize`'s loop: `tomo[m] = proj` (line 126). -/
def normStep (denom dark : Frame) (cutoff : Option ℚ) (t : List Frame) (m : ℕ) : List Frame :=
  t.set m (normFrame denom dark cutoff (t.getD m []))

/-- The numeric kernel `_normalize(flat, dark, cutoff, istart, iend)`
(lines 115-126): builds the guarded denominator once, then rewrites frames
`istart, istart+1, ..., iend-1` of the shared tomogram in ascending order.
The flat and dark frames are only read. -/
def _normalize (s : NState) (cutoff : Option ℚ) (istart iend : ℕ) : NState :=
  ⟨(List.range' istart (iend - istart)).foldl
      (normStep (denomOf s.flat s.dark) s.dark cutoff) s.tomo,
    s.flat, s.dark⟩

/-- The sequential reference semantics: the kernel applied independently to
every frame of a volume in ascending order. -/
def kernelSeq (fR dR : Frame) (cutoff : Option ℚ) (vol : List Frame) : List Frame :=
  vol.map (normFrame (denomOf fR dR) dR cutoff)

/-! ### The chunk dispatcher, modelled from the spec

`tomopy.util.mproc.distribute_jobs` is not under the repository sources;
the definitions below are modelled from the spec's Chunk Dispatcher
contract: partition the frame axis into contiguous chunks (fixed chunk
size with a shorter last chunk when a chunk size is supplied, otherwise an
even spread over the worker count with the remainder given to the earliest
chunks) and run the kernel once per chunk. -/

/-- Contiguous half-open ranges of the given sizes, starting at `start`. -/
def rangesOfSizes : ℕ → List ℕ → List (ℕ × ℕ)
  | _, [] => []
  | start, sz :: rest => (start, start + sz) :: rangesOfSizes (start + sz) rest

/-- Modelled from the spec: chunk sizes when a chunk size `c` is supplied —
chunks of length `c`, the last chunk shorter when `c` does not divide `n`. -/
def chunkSizes (n c : ℕ) : List ℕ :=
  List.replicate (n / c) c ++ (if n % c = 0 then [] else [n % c])

/-- Modelled from the spec: chunk sizes when only a worker count `w` is
supplied — `n` frames spread evenly over `w` chunks, any remainder
distributed to the earliest chunks, one extra frame each. -/
def spreadSizes (n w : ℕ) : List ℕ :=
  (List.range w).map (fun i => n / w + if i < n % w then 1 else 0)

/-- Modelled from the spec: the chunk ranges chosen by the dispatcher for
`n` frames given the optional `ncore` and `nchunk` arguments (a supplied
chunk size wins; with neither supplied the model uses one worker, which by
the dispatcher contract yields the same result as any worker count). -/
def jobRanges (n : ℕ) (ncore nchunk : Option ℕ) : List (ℕ × ℕ) :=
  rangesOfSizes 0
    (match nchunk with
     | some c => chunkSizes n c
     | none =>
       match ncore with
       | some w => spreadSizes n w
       | none => spreadSizes n 1)

/-- Run the kernel once per chunk range over the shared state. -/
def dispatchRanges (cutoff : Option ℚ) (ranges : List (ℕ × ℕ)) (s : NState) : NState :=
  ranges.foldl (fun st r => _normalize st cutoff r.1 r.2) s

/-- Modelled from the spec: `tomopy.util.mproc.distribute_jobs` applied to
`_normalize` — partition the frame axis of `vol` into chunks and apply the
numeric kernel once per chunk against the shared array. -/
def distribute_jobs (fR dR : Frame) (cutoff : Option ℚ) (ncore nchunk : Option ℕ)
    (vol : List Frame) : List Frame :=
  (dispatchRanges cutoff (jobRanges vol.length ncore nchunk) ⟨vol, fR, dR⟩).tomo

/-! ### Flat/dark reducers (`np.mean` / `np.median` along axis 0) -/

/-- `np.mean` of a 1-D sample list.  On an empty list numpy does not fail: it
emits a RuntimeWarning and returns the float NaN, which has no counterpart
among the rationals; the model marks that result `none` (outside the rational
model), and the nonempty branch is the arithmetic mean. -/
def npMean (l : List ℚ) : Option ℚ :=
  if l.isEmpty then none else some (l.sum / (l.length : ℚ))

/-- Ascending sort of a sample list. -/
def sortQ (l : List ℚ) : List ℚ :=
  l.insertionSort (fun a b => a ≤ b)

/-- `np.median` of a 1-D sample list: the middle element of the ascending
sort for odd length, the mean of the two middle elements for even length.
On an empty list numpy does not fail: it emits a RuntimeWarning and returns
the float NaN, which has no counterpart among the rationals; the model marks
that result `none` (outside the rational model). -/
def npMedian (l : List ℚ) : Option ℚ :=
  if l.isEmpty then none
  else if l.length % 2 = 1 then some ((sortQ l).getD (l.length / 2) 0)
  else some (((sortQ l).getD (l.length / 2 - 1) 0 + (sortQ l).getD (l.length / 2) 0) / 2)

/-- Prepend a frame's samples onto per-pixel sample lists. -/
def zipCons (f : Frame) (acc : List (List (List ℚ))) : List (List (List ℚ)) :=
  List.zipWith (List.zipWith List.cons) f acc

/-- Per-pixel sample lists of a stack of frames (axis-0 transposition). -/
def stackTranspose (stack : List Frame) : List (List (List ℚ)) :=
  match stack with
  | [] => []
  | f :: _ => List.foldr zipCons (f.map (fun row => row.map (fun _ => ([] : List ℚ)))) stack

/-- Option-valued map over a list, failing when any element fails. -/
def optMap {α β : Type} (g : α → Option β) : List α → Option (List β)
  | [] => some []
  | a :: l =>
    match g a, optMap g l with
    | some b, some bs => some (b :: bs)
    | _, _ => none

/-- Reduce a stack of calibration frames to one frame by applying `red` to
every per-pixel sample list (`np.mean(stack, axis=0)` / `np.median(stack,
axis=0)`).  On an empty stack numpy returns a NaN-filled frame (with a
RuntimeWarning), not an error; NaN is outside the rational model, so the
model returns `none` there. -/
def reduceStack (red : List ℚ → Option ℚ) (stack : List Frame) : Option Frame :=
  match stack with
  | [] => none
  | _ :: _ => optMap (fun row => optMap red row) (stackTranspose stack)

/-! ### The entry points `normalize` and `normalize_nf` -/

/-- `normalize(tomo, flat, dark, cutoff, ncore, nchunk)` (lines 74-112):
reduce the flat and dark stacks by the mean along axis 0, then dispatch
`_normalize` over the whole tomogram. -/
def normalize (tomo flat dark : List Frame) (cutoff : Option ℚ)
    (ncore nchunk : Option ℕ) : Option (List Frame) :=
  match reduceStack npMean flat, reduceStack npMean dark with
  | some fR, some dR => some (distribute_jobs fR dR cutoff ncore nchunk tomo)
  | _, _ => none

/-- Segment end of iteration `m` of `normalize_nf`'s loop (line 219):
`tend = total_tomo if m >= num_flats-1 else (flat_loc[m+1]-loc-1)//2 + loc`. -/
def segEnd (flat_loc : List ℤ) (total : ℤ) (m : ℕ) : ℤ :=
  if flat_loc.length - 1 ≤ m then total
  else Int.fdiv (flat_loc.getD (m + 1) 0 - flat_loc.getD m 0 - 1) 2 + flat_loc.getD m 0

/-- Segment start of iteration `m` (line 218): `tstart = 0 if m == 0 else
tend`, where `tend` is the previous iteration's segment end. -/
def segStart (flat_loc : List ℤ) (total : ℤ) (m : ℕ) : ℤ :=
  if m = 0 then 0 else segEnd flat_loc total (m - 1)

/-- Numpy slice assignment `arr[a:b] = sub` for `a ≤ b ≤ arr.length` and
`sub.length = b - a`. -/
def setSlice (arr : List Frame) (a b : ℕ) (sub : List Frame) : List Frame :=
  arr.take a ++ sub ++ arr.drop b

/-- `np.zeros_like(tomo)` (line 199). -/
def zerosLike (vol : List Frame) : List Frame :=
  vol.map (fun fr => fr.map (fun row => row.map (fun _ => (0 : ℚ))))

/-- The loop of `normalize_nf` (lines 210-228), iteration index `m`, with
`k` iterations left (`m + k = flat_loc.length`): take the `m`-th run of
`q = num_per_flat` flat frames (`flats[m*q:(m+1)*q]`), reduce it by the
median, and write the kernel's output for tomogram slice
`[tstart, tend)` into the output volume `arr`. -/
def nfLoop (tomo flats : List Frame) (darkR : Frame) (cutoff : Option ℚ)
    (flat_loc : List ℤ) (q : ℕ) (total : ℤ) (ncore nchunk : Option ℕ) :
    ℕ → ℕ → List Frame → Option (List Frame)
  | 0, _, arr => some arr
  | Nat.succ k, m, arr =>
    match reduceStack npMedian ((flats.drop (m * q)).take ((m + 1) * q - m * q)) with
    | none => none
    | some flatR =>
      nfLoop tomo flats darkR cutoff flat_loc q total ncore nchunk k (m + 1)
        (setSlice arr (segStart flat_loc total m).toNat (segEnd flat_loc total m).toNat
          (distribute_jobs flatR darkR cutoff ncore nchunk
            ((tomo.drop (segStart flat_loc total m).toNat).take
              (segEnd flat_loc total m - segStart flat_loc total m).toNat)))

/-- `normalize_nf(tomo, flats, dark, flat_loc, cutoff, ncore, nchunk)`
(lines 167-230): allocate a zero output volume, reduce the whole dark stack
once by the median, set `num_per_flat = total_flats // num_flats`, and run
the per-flat-location loop.  An empty `flat_loc` makes the source raise
`ZeroDivisionError` at `total_flats//num_flats`, modelled as `none`.  A
`none` from a median reduction means numpy would produce a NaN-filled
reference frame there (and hence a NaN-contaminated output volume); such
runs are outside the rational model, so the model returns `none` for them
rather than representing the NaN-filled result. -/
def normalize_nf (tomo flats dark : List Frame) (flat_loc : List ℤ)
    (cutoff : Option ℚ) (ncore nchunk : Option ℕ) : Option (List Frame) :=
  if flat_loc.length = 0 then none
  else
    match reduceStack npMedian dark with
    | none => none
    | some darkR =>
      nfLoop tomo flats darkR cutoff flat_loc (flats.length / flat_loc.length)
        (tomo.length : ℤ) ncore nchunk flat_loc.length 0 (zerosLike tomo)

/-! ### Lemmas about the kernel loop -/

theorem foldl_normStep_length (dn dk : Frame) (c : Option ℚ) (L : List ℕ) :
    ∀ t : List Frame, (L.foldl (normStep dn dk c) t).length = t.length := by
  induction L with
  | nil => intro t; rfl
  | cons m L ih =>
    intro t
    rw [List.foldl_cons, ih]
    simp [normStep]

theorem foldl_normStep_getD_outside (dn dk : Frame) (c : Option ℚ) (k : ℕ) :
    ∀ (a : ℕ) (t : List Frame) (i : ℕ), i < a ∨ a + k ≤ i →
      ((List.range' a k).foldl (normStep dn dk c) t).getD i [] = t.getD i [] := by
  induction k with
  | zero => intro a t i _; rfl
  | succ k ih =>
    intro a t i h
    rw [List.range'_succ, List.foldl_cons, ih (a + 1) _ i (by omega)]
    have hne : a ≠ i := by omega
    simp [normStep, List.getD_eq_getElem?_getD, List.getElem?_set_ne hne]

theorem foldl_normStep_getD_inside (dn dk : Frame) (c : Option ℚ) (k : ℕ) :
    ∀ (a : ℕ) (t : List Frame) (i : ℕ), a ≤ i → i < a + k → a + k ≤ t.length →
      ((List.range' a k).foldl (normStep dn dk c) t).getD i [] =
        normFrame dn dk c (t.getD i []) := by
  induction k with
  | zero => intro a t i h1 h2 _; omega
  | succ k ih =>
    intro a t i h1 h2 h3
    rw [List.range'_succ, List.foldl_cons]
    rcases Nat.eq_or_lt_of_le h1 with heq | hlt
    · subst heq
      rw [foldl_normStep_getD_outside dn dk c k (a + 1) _ a (by omega)]
      have ha : a < t.length := by omega
      simp [normStep, List.getD_eq_getElem?_getD, List.getElem?_set_self ha]
    · rw [ih (a + 1) _ i hlt (by omega) (by simp [normStep]; omega)]
      have hne : a ≠ i := by omega
      simp [normStep, List.getD_eq_getElem?_getD, List.getElem?_set_ne hne]

theorem _normalize_flat (s : NState) (c : Option ℚ) (a b : ℕ) :
    (_normalize s c a b).flat = s.flat := rfl

theorem _normalize_dark (s : NState) (c : Option ℚ) (a b : ℕ) :
    (_normalize s c a b).dark = s.dark := rfl

theorem _normalize_tomo_length (s : NState) (c : Option ℚ) (a b : ℕ) :
    (_normalize s c a b).tomo.length = s.tomo.length :=
  foldl_normStep_length _ _ _ _ _

theorem _normalize_getD_outside (s : NState) (c : Option ℚ) (a b i : ℕ)
    (h : i < a ∨ b ≤ i) :
    (_normalize s c a b).tomo.getD i [] = s.tomo.getD i [] := by
  unfold _normalize
  rcases le_or_lt a b with hab | hab
  · exact foldl_normStep_getD_outside _ _ _ _ _ _ _ (by omega)
  · have : b - a = 0 := by omega
    simp [this]

theorem _normalize_getD_inside (s : NState) (c : Option ℚ) (a b i : ℕ)
    (h1 : a ≤ i) (h2 : i < b) (h3 : b ≤ s.tomo.length) :
    (_normalize s c a b).tomo.getD i [] =
      normFrame (denomOf s.flat s.dark) s.dark c (s.tomo.getD i []) := by
  unfold _normalize
  exact foldl_normStep_getD_inside _ _ _ _ _ _ _ h1 (by omega) (by omega)

theorem kernelSeq_length (fR dR : Frame) (c : Option ℚ) (vol : List Frame) :
    (kernelSeq fR dR c vol).length = vol.length := by
  simp [kernelSeq]

theorem kernelSeq_getD (fR dR : Frame) (c : Option ℚ) (vol : List Frame) (j : ℕ)
    (hj : j < vol.length) :
    (kernelSeq fR dR c vol).getD j [] =
      normFrame (denomOf fR dR) dR c (vol.getD j []) := by
  have hj' : j < (kernelSeq fR dR c vol).length := by simp [kernelSeq_length]; omega
  rw [List.getD_eq_getElem _ _ hj', List.getD_eq_getElem _ _ hj]
  simp [kernelSeq]

theorem _normalize_tomo_eq_kernelSeq (s : NState) (c : Option ℚ) :
    (_normalize s c 0 s.tomo.length).tomo = kernelSeq s.flat s.dark c s.tomo := by
  apply List.ext_getElem
  · rw [_normalize_tomo_length, kernelSeq_length]
  · intro i h1 h2
    have hi : i < s.tomo.length := by rw [_normalize_tomo_length] at h1; exact h1
    rw [← List.getD_eq_getElem _ [] h1, ← List.getD_eq_getElem _ [] h2]
    rw [_normalize_getD_inside s c 0 s.tomo.length i (Nat.zero_le _) hi le_rfl]
    rw [kernelSeq_getD _ _ _ _ _ hi]

theorem _normalize_comp (s : NState) (c : Option ℚ) (a b d : ℕ)
    (hab : a ≤ b) (hbd : b ≤ d) :
    _normalize (_normalize s c a b) c b d = _normalize s c a d := by
  unfold _normalize
  simp only [NState.mk.injEq, and_true]
  rw [← List.foldl_append]
  congr 1
  have h := List.range'_append a (b - a) (d - b) 1
  have h1 : a + 1 * (b - a) = b := by omega
  have h2 : d - b + (b - a) = d - a := by omega
  rw [h1, h2] at h
  exact h

/-! ### Lemmas about the dispatcher model -/

theorem dispatchRanges_ofSizes (c : Option ℚ) (sizes : List ℕ) :
    ∀ (start : ℕ) (s : NState),
      dispatchRanges c (rangesOfSizes start sizes) s =
        _normalize s c start (start + sizes.sum) := by
  induction sizes with
  | nil =>
    intro start s
    show s = _normalize s c start (start + 0)
    unfold _normalize
    simp
  | cons sz rest ih =>
    intro start s
    show dispatchRanges c (rangesOfSizes (start + sz) rest)
        (_normalize s c start (start + sz)) = _
    rw [ih, _normalize_comp s c start (start + sz) _ (by omega) (by omega)]
    congr 1
    simp [List.sum_cons]
    omega

theorem chunkSizes_sum (n c : ℕ) : (chunkSizes n c).sum = n := by
  unfold chunkSizes
  rw [List.sum_append, List.sum_replicate, smul_eq_mul, Nat.mul_comm]
  have h1 := Nat.div_add_mod n c
  by_cases h : n % c = 0
  · rw [if_pos h]
    simp
    omega
  · rw [if_neg h]
    simp
    omega

theorem spreadSizes_sum (n w : ℕ) (hw : 0 < w) : (spreadSizes n w).sum = n := by
  have aux : ∀ k : ℕ,
      ((List.range k).map (fun i => n / w + if i < n % w then 1 else 0)).sum =
        k * (n / w) + min k (n % w) := by
    intro k
    induction k with
    | zero => simp
    | succ k ih =>
      rw [List.range_succ, List.map_append, List.sum_append, ih]
      simp only [List.map_cons, List.map_nil, List.sum_cons, List.sum_nil]
      rw [Nat.succ_mul]
      by_cases h : k < n % w
      · rw [if_pos h]
        omega
      · rw [if_neg h]
        omega
  unfold spreadSizes
  rw [aux w]
  have h1 := Nat.div_add_mod n w
  have h2 : n % w < w := Nat.mod_lt _ hw
  omega

theorem distribute_jobs_eq_kernelSeq (fR dR : Frame) (c : Option ℚ)
    (ncore nchunk : Option ℕ) (vol : List Frame) (hcore : ncore ≠ some 0) :
    distribute_jobs fR dR c ncore nchunk vol = kernelSeq fR dR c vol := by
  have base : ∀ sizes : List ℕ, sizes.sum = vol.length →
      (dispatchRanges c (rangesOfSizes 0 sizes) ⟨vol, fR, dR⟩).tomo =
        kernelSeq fR dR c vol := by
    intro sizes hs
    rw [dispatchRanges_ofSizes, Nat.zero_add, hs]
    exact _normalize_tomo_eq_kernelSeq ⟨vol, fR, dR⟩ c
  unfold distribute_jobs jobRanges
  cases nchunk with
  | some ch => exact base _ (chunkSizes_sum _ _)
  | none =>
    cases ncore with
    | none => exact base _ (spreadSizes_sum _ _ (by omega))
    | some w =>
      have hw : 0 < w := by
        rcases Nat.eq_zero_or_pos w with h | h
        · exact absurd (by rw [h]) hcore
        · exact h
      exact base _ (spreadSizes_sum _ _ hw)

theorem distribute_jobs_length (fR dR : Frame) (c : Option ℚ)
    (ncore nchunk : Option ℕ) (vol : List Frame) (hcore : ncore ≠ some 0) :
    (distribute_jobs fR dR c ncore nchunk vol).length = vol.length := by
  rw [distribute_jobs_eq_kernelSeq fR dR c ncore nchunk vol hcore, kernelSeq_length]

/-! ### Lemmas about the reducers -/

theorem mem_zipWith {α β γ : Type} (g : α → β → γ) :
    ∀ (l₁ : List α) (l₂ : List β) (c : γ), c ∈ List.zipWith g l₁ l₂ →
      ∃ a b, c = g a b := by
  intro l₁
  induction l₁ with
  | nil => intro l₂ c h; simp at h
  | cons x xs ih =>
    intro l₂ c h
    cases l₂ with
    | nil => simp at h
    | cons y ys =>
      rw [List.zipWith_cons_cons] at h
      rcases List.mem_cons.mp h with h | h
      · exact ⟨x, y, h⟩
      · exact ih ys c h

theorem optMap_isSome {α β : Type} (g : α → Option β) :
    ∀ l : List α, (∀ a ∈ l, (g a).isSome) → (optMap g l).isSome := by
  intro l
  induction l with
  | nil => intro _; rfl
  | cons a l ih =>
    intro h
    have ha : (g a).isSome := h a (List.mem_cons_self a l)
    have hl : (optMap g l).isSome := ih (fun x hx => h x (List.mem_cons_of_mem a hx))
    obtain ⟨b, hb⟩ := Option.isSome_iff_exists.mp ha
    obtain ⟨bs, hbs⟩ := Option.isSome_iff_exists.mp hl
    unfold optMap
    rw [hb, hbs]
    rfl

theorem npMedian_cons_isSome (a : ℚ) (l : List ℚ) : (npMedian (a :: l)).isSome := by
  unfold npMedian
  simp only [List.isEmpty_cons, if_false, Bool.false_eq_true]
  split <;> rfl

theorem reduceStack_npMedian_isSome (f : Frame) (rest : List Frame) :
    (reduceStack npMedian (f :: rest)).isSome := by
  have hst : stackTranspose (f :: rest) =
      zipCons f (List.foldr zipCons
        (f.map (fun row => row.map (fun _ => ([] : List ℚ)))) rest) := rfl
  show (optMap (fun row => optMap npMedian row) (stackTranspose (f :: rest))).isSome
  apply optMap_isSome
  intro row hrow
  apply optMap_isSome
  intro cell hcell
  rw [hst] at hrow
  unfold zipCons at hrow
  obtain ⟨frow, xrow, hr⟩ := mem_zipWith _ _ _ _ hrow
  rw [hr] at hcell
  obtain ⟨a, b, hc⟩ := mem_zipWith _ _ _ _ hcell
  rw [hc]
  exact npMedian_cons_isSome a b

theorem reduceStack_npMedian_ne_none (stack : List Frame) (h : stack ≠ []) :
    ∃ fR, reduceStack npMedian stack = some fR := by
  cases stack with
  | nil => exact absurd rfl h
  | cons f rest =>
    exact Option.isSome_iff_exists.mp (reduceStack_npMedian_isSome f rest)

theorem npMean_three (a b c : ℚ) : npMean [a, b, c] = some ((a + b + c) / 3) := by
  unfold npMean
  norm_num
  ring

theorem sortQ_three (a b c : ℚ) (h1 : a < b) (h2 : b < c) :
    sortQ [b, a, c] = [a, b, c] := by
  unfold sortQ
  simp [List.insertionSort, List.orderedInsert, h2.le, (h1.trans h2).le, not_le.mpr h1]

theorem npMedian_three (a b c : ℚ) (h1 : a < b) (h2 : b < c) :
    npMedian [b, a, c] = some b := by
  unfold npMedian
  rw [sortQ_three a b c h1 h2]
  norm_num

theorem npMedian_two (a b : ℚ) (h : a ≤ b) : npMedian [b, a] = some ((a + b) / 2) := by
  unfold npMedian
  by_cases hba : b ≤ a
  · have hab : a = b := le_antisymm h hba
    subst hab
    simp [sortQ, List.insertionSort, List.orderedInsert]
  · simp [sortQ, List.insertionSort, List.orderedInsert, hba]

/-! ### Lemmas about slices -/

theorem setSlice_length (arr sub : List Frame) (a b : ℕ) (ha : a ≤ b)
    (hb : b ≤ arr.length) (hs : sub.length = b - a) :
    (setSlice arr a b sub).length = arr.length := by
  simp [setSlice]
  omega

theorem setSlice_getD_left (arr sub : List Frame) (a b i : ℕ) (hi : i < a)
    (ha : a ≤ arr.length) :
    (setSlice arr a b sub).getD i [] = arr.getD i [] := by
  unfold setSlice
  rw [List.getD_eq_getElem?_getD, List.getD_eq_getElem?_getD]
  have hta : (List.take a arr).length = a := by simp; omega
  rw [List.getElem?_append_left (by simp only [List.length_append, hta]; omega)]
  rw [List.getElem?_append_left (by omega)]
  rw [List.getElem?_take, if_pos hi]

theorem setSlice_getD_mid (arr sub : List Frame) (a b i : ℕ) (h1 : a ≤ i)
    (h2 : i - a < sub.length) (ha : a ≤ arr.length) :
    (setSlice arr a b sub).getD i [] = sub.getD (i - a) [] := by
  unfold setSlice
  rw [List.getD_eq_getElem?_getD, List.getD_eq_getElem?_getD]
  have hta : (List.take a arr).length = a := by simp; omega
  rw [List.getElem?_append_left (by simp only [List.length_append, hta]; omega)]
  rw [List.getElem?_append_right (by omega)]
  rw [hta]

theorem getD_drop_take (l : List Frame) (a n j : ℕ) (hj : j < n) :
    ((l.drop a).take n).getD j [] = l.getD (a + j) [] := by
  rw [List.getD_eq_getElem?_getD, List.getD_eq_getElem?_getD]
  rw [List.getElem?_take, if_pos hj, List.getElem?_drop]

theorem length_drop_take (l : List Frame) (a n : ℕ) (h : a + n ≤ l.length) :
    ((l.drop a).take n).length = n := by
  simp
  omega

/-! ### Lemmas about the segment boundaries of normalize_nf -/

theorem segStart_zero (l : List ℤ) (total : ℤ) : segStart l total 0 = 0 := rfl

theorem segStart_succ (l : List ℤ) (total : ℤ) (m : ℕ) :
    segStart l total (m + 1) = segEnd l total m := by
  simp [segStart]

theorem segEnd_last (l : List ℤ) (total : ℤ) (m : ℕ) (h : l.length - 1 ≤ m) :
    segEnd l total m = total := by
  rw [segEnd, if_pos h]

theorem segEnd_formula (l : List ℤ) (total : ℤ) (m : ℕ) (h : m + 1 < l.length) :
    segEnd l total m =
      Int.fdiv (l.getD (m + 1) 0 - l.getD m 0 - 1) 2 + l.getD m 0 := by
  rw [segEnd, if_neg (by omega)]

theorem segEnd_formula_ediv (l : List ℤ) (total : ℤ) (m : ℕ) (h : m + 1 < l.length) :
    segEnd l total m = (l.getD (m + 1) 0 - l.getD m 0 - 1) / 2 + l.getD m 0 := by
  rw [segEnd_formula l total m h, Int.fdiv_eq_ediv _ (by omega)]

theorem loc_le_segEnd (l : List ℤ) (total : ℤ)
    (hmono : ∀ i < l.length - 1, l.getD i 0 < l.getD (i + 1) 0)
    (hrange : ∀ i < l.length, 0 ≤ l.getD i 0 ∧ l.getD i 0 < total)
    (m : ℕ) (hm : m < l.length) : l.getD m 0 ≤ segEnd l total m := by
  by_cases h : l.length - 1 ≤ m
  · rw [segEnd_last l total m h]
    exact (hrange m hm).2.le
  · have h' : m + 1 < l.length := by omega
    rw [segEnd_formula_ediv l total m h']
    have hd := hmono m (by omega)
    omega

theorem segEnd_lt_next (l : List ℤ) (total : ℤ)
    (hmono : ∀ i < l.length - 1, l.getD i 0 < l.getD (i + 1) 0)
    (m : ℕ) (h : m + 1 < l.length) : segEnd l total m < l.getD (m + 1) 0 := by
  rw [segEnd_formula_ediv l total m h]
  have hd := hmono m (by omega)
  omega

theorem segStart_le_loc (l : List ℤ) (total : ℤ)
    (hmono : ∀ i < l.length - 1, l.getD i 0 < l.getD (i + 1) 0)
    (hrange : ∀ i < l.length, 0 ≤ l.getD i 0 ∧ l.getD i 0 < total)
    (m : ℕ) (hm : m < l.length) : segStart l total m ≤ l.getD m 0 := by
  cases m with
  | zero =>
    rw [segStart_zero]
    exact (hrange 0 hm).1
  | succ m' =>
    rw [segStart_succ]
    exact (segEnd_lt_next l total hmono m' hm).le

theorem segStart_le_segEnd (l : List ℤ) (total : ℤ)
    (hmono : ∀ i < l.length - 1, l.getD i 0 < l.getD (i + 1) 0)
    (hrange : ∀ i < l.length, 0 ≤ l.getD i 0 ∧ l.getD i 0 < total)
    (m : ℕ) (hm : m < l.length) : segStart l total m ≤ segEnd l total m :=
  (segStart_le_loc l total hmono hrange m hm).trans
    (loc_le_segEnd l total hmono hrange m hm)

theorem segStart_nonneg (l : List ℤ) (total : ℤ)
    (hmono : ∀ i < l.length - 1, l.getD i 0 < l.getD (i + 1) 0)
    (hrange : ∀ i < l.length, 0 ≤ l.getD i 0 ∧ l.getD i 0 < total)
    (m : ℕ) (hm : m < l.length) : 0 ≤ segStart l total m := by
  cases m with
  | zero => rw [segStart_zero]
  | succ m' =>
    rw [segStart_succ]
    exact ((hrange m' (by omega)).1).trans
      (loc_le_segEnd l total hmono hrange m' (by omega))

theorem segEnd_le_total (l : List ℤ) (total : ℤ)
    (hmono : ∀ i < l.length - 1, l.getD i 0 < l.getD (i + 1) 0)
    (hrange : ∀ i < l.length, 0 ≤ l.getD i 0 ∧ l.getD i 0 < total)
    (m : ℕ) (hm : m < l.length) : segEnd l total m ≤ total := by
  by_cases h : l.length - 1 ≤ m
  · rw [segEnd_last l total m h]
  · have h' : m + 1 < l.length := by omega
    exact ((segEnd_lt_next l total hmono m h').trans (hrange (m + 1) h').2).le

theorem segStart_mono (l : List ℤ) (total : ℤ)
    (hmono : ∀ i < l.length - 1, l.getD i 0 < l.getD (i + 1) 0)
    (hrange : ∀ i < l.length, 0 ≤ l.getD i 0 ∧ l.getD i 0 < total) :
    ∀ (k i : ℕ), i + k ≤ l.length → segStart l total i ≤ segStart l total (i + k) := by
  intro k
  induction k with
  | zero => intro i _; exact le_rfl
  | succ k ih =>
    intro i h
    have h1 : segStart l total i ≤ segStart l total (i + k) := ih i (by omega)
    have h2 : segStart l total (i + k) ≤ segStart l total (i + k + 1) := by
      rw [segStart_succ]
      exact segStart_le_segEnd l total hmono hrange (i + k) (by omega)
    calc segStart l total i ≤ segStart l total (i + k) := h1
      _ ≤ segStart l total (i + (k + 1)) := by rw [show i + (k + 1) = i + k + 1 by omega]; exact h2

theorem segStart_mono_of_le (l : List ℤ) (total : ℤ)
    (hmono : ∀ i < l.length - 1, l.getD i 0 < l.getD (i + 1) 0)
    (hrange : ∀ i < l.length, 0 ≤ l.getD i 0 ∧ l.getD i 0 < total)
    (i j : ℕ) (hij : i ≤ j) (hj : j ≤ l.length) :
    segStart l total i ≤ segStart l total j := by
  have := segStart_mono l total hmono hrange (j - i) i (by omega)
  rw [show i + (j - i) = j by omega] at this
  exact this

theorem segment_exists_unique (l : List ℤ) (total : ℤ) (hF : 0 < l.length)
    (hmono : ∀ i < l.length - 1, l.getD i 0 < l.getD (i + 1) 0)
    (hrange : ∀ i < l.length, 0 ≤ l.getD i 0 ∧ l.getD i 0 < total)
    (t : ℤ) (h0 : 0 ≤ t) (ht : t < total) :
    ∃! m, m < l.length ∧ segStart l total m ≤ t ∧ t < segEnd l total m := by
  have hexP : t < segEnd l total (l.length - 1) := by
    rw [segEnd_last l total _ le_rfl]
    exact ht
  have hex : ∃ m, t < segEnd l total m := ⟨_, hexP⟩
  have hm₀ : t < segEnd l total (Nat.find hex) := Nat.find_spec hex
  have hm₀le : Nat.find hex ≤ l.length - 1 := Nat.find_min' hex hexP
  have hm₀lt : Nat.find hex < l.length := by omega
  have hstart : segStart l total (Nat.find hex) ≤ t := by
    rcases Nat.eq_zero_or_pos (Nat.find hex) with h | h
    · rw [h, segStart_zero]
      exact h0
    · have hprev : ¬ t < segEnd l total (Nat.find hex - 1) :=
        Nat.find_min hex (by omega)
      have : segEnd l total (Nat.find hex - 1) ≤ t := by omega
      rw [show Nat.find hex = Nat.find hex - 1 + 1 by omega, segStart_succ]
      exact this
  refine ⟨Nat.find hex, ⟨hm₀lt, hstart, hm₀⟩, ?_⟩
  intro m' hm'
  obtain ⟨hm'lt, hm's, hm'e⟩ := hm'
  by_contra hne
  rcases lt_or_gt_of_ne hne with hlt | hgt
  · exact absurd hm'e (Nat.find_min hex hlt)
  · have h1 : segEnd l total (Nat.find hex) = segStart l total (Nat.find hex + 1) :=
      (segStart_succ l total _).symm
    have h2 : segStart l total (Nat.find hex + 1) ≤ segStart l total m' :=
      segStart_mono_of_le l total hmono hrange _ _ (by omega) hm'lt.le
    omega

/-! ### The main invariant of normalize_nf's loop -/

theorem nfLoop_spec (tomo flats : List Frame) (darkR : Frame) (cutoff : Option ℚ)
    (l : List ℤ) (ncore nchunk : Option ℕ)
    (hmono : ∀ i < l.length - 1, l.getD i 0 < l.getD (i + 1) 0)
    (hrange : ∀ i < l.length, 0 ≤ l.getD i 0 ∧ l.getD i 0 < (tomo.length : ℤ))
    (hq : l.length ≤ flats.length)
    (hcore : ncore ≠ some 0) :
    ∀ (k : ℕ), ∀ (m : ℕ) (arr : List Frame), m + k = l.length → arr.length = tomo.length →
      ∃ out,
        nfLoop tomo flats darkR cutoff l (flats.length / l.length) (tomo.length : ℤ)
            ncore nchunk k m arr = some out ∧
        out.length = tomo.length ∧
        (∀ i : ℕ, (i : ℤ) < segStart l (tomo.length : ℤ) m →
           out.getD i [] = arr.getD i []) ∧
        (∀ m', m ≤ m' → m' < l.length →
           ∀ fR, reduceStack npMedian
               ((flats.drop (m' * (flats.length / l.length))).take
                 ((m' + 1) * (flats.length / l.length) - m' * (flats.length / l.length))) =
               some fR →
           ∀ t : ℕ, segStart l (tomo.length : ℤ) m' ≤ (t : ℤ) →
             (t : ℤ) < segEnd l (tomo.length : ℤ) m' →
             out.getD t [] = normFrame (denomOf fR darkR) darkR cutoff (tomo.getD t [])) := by
  intro k
  induction k with
  | zero =>
    intro m arr hmk harr
    refine ⟨arr, rfl, harr, fun i _ => rfl, ?_⟩
    intro m' hmm' hm'lt _ _ _ _ _
    omega
  | succ k ih =>
    intro m arr hmk harr
    have hF : 0 < l.length := by omega
    have hmlt : m < l.length := by omega
    have hq1 : 1 ≤ flats.length / l.length := (Nat.one_le_div_iff hF).mpr hq
    have hFq : l.length * (flats.length / l.length) ≤ flats.length := by
      rw [Nat.mul_comm]
      exact Nat.div_mul_le_self flats.length l.length
    have hsz : (m + 1) * (flats.length / l.length) - m * (flats.length / l.length) =
        flats.length / l.length := by
      rw [Nat.succ_mul]
      omega
    have hmq : m * (flats.length / l.length) + flats.length / l.length ≤ flats.length := by
      have h1 : (m + 1) * (flats.length / l.length) ≤
          l.length * (flats.length / l.length) :=
        Nat.mul_le_mul_right _ (by omega)
      rw [Nat.succ_mul] at h1
      omega
    obtain ⟨fR, hfR⟩ := reduceStack_npMedian_ne_none
      ((flats.drop (m * (flats.length / l.length))).take
        ((m + 1) * (flats.length / l.length) - m * (flats.length / l.length)))
      (by
        apply List.ne_nil_of_length_pos
        rw [hsz]
        simp only [List.length_take, List.length_drop]
        omega)
    have ha0 : 0 ≤ segStart l (tomo.length : ℤ) m :=
      segStart_nonneg l _ hmono hrange m hmlt
    have hae : segStart l (tomo.length : ℤ) m ≤ segEnd l (tomo.length : ℤ) m :=
      segStart_le_segEnd l _ hmono hrange m hmlt
    have he : segEnd l (tomo.length : ℤ) m ≤ (tomo.length : ℤ) :=
      segEnd_le_total l _ hmono hrange m hmlt
    have hseg_len : ((tomo.drop (segStart l (tomo.length : ℤ) m).toNat).take
        (segEnd l (tomo.length : ℤ) m - segStart l (tomo.length : ℤ) m).toNat).length =
        (segEnd l (tomo.length : ℤ) m - segStart l (tomo.length : ℤ) m).toNat :=
      length_drop_take _ _ _ (by omega)
    have hsub : distribute_jobs fR darkR cutoff ncore nchunk
        ((tomo.drop (segStart l (tomo.length : ℤ) m).toNat).take
          (segEnd l (tomo.length : ℤ) m - segStart l (tomo.length : ℤ) m).toNat) =
        kernelSeq fR darkR cutoff
          ((tomo.drop (segStart l (tomo.length : ℤ) m).toNat).take
            (segEnd l (tomo.length : ℤ) m - segStart l (tomo.length : ℤ) m).toNat) :=
      distribute_jobs_eq_kernelSeq _ _ _ _ _ _ hcore
    have hsub_len : (distribute_jobs fR darkR cutoff ncore nchunk
        ((tomo.drop (segStart l (tomo.length : ℤ) m).toNat).take
          (segEnd l (tomo.length : ℤ) m - segStart l (tomo.length : ℤ) m).toNat)).length =
        (segEnd l (tomo.length : ℤ) m - segStart l (tomo.length : ℤ) m).toNat := by
      rw [hsub, kernelSeq_length, hseg_len]
    have harr' : (setSlice arr (segStart l (tomo.length : ℤ) m).toNat
        (segEnd l (tomo.length : ℤ) m).toNat
        (distribute_jobs fR darkR cutoff ncore nchunk
          ((tomo.drop (segStart l (tomo.length : ℤ) m).toNat).take
            (segEnd l (tomo.length : ℤ) m - segStart l (tomo.length : ℤ) m).toNat))).length =
        tomo.length := by
      rw [setSlice_length _ _ _ _ (by omega) (by omega) (by omega)]
      exact harr
    obtain ⟨out, hout, houtlen, houtpres, houtcov⟩ := ih (m + 1) _ (by omega) harr'
    refine ⟨out, ?_, houtlen, ?_, ?_⟩
    · simp only [nfLoop]
      rw [hfR]
      exact hout
    · intro i hi
      have hmono1 : segStart l (tomo.length : ℤ) m ≤ segStart l (tomo.length : ℤ) (m + 1) :=
        segStart_mono_of_le l _ hmono hrange m (m + 1) (by omega) (by omega)
      rw [houtpres i (by omega)]
      exact setSlice_getD_left _ _ _ _ _ (by omega) (by omega)
    · intro m' hmm' hm'lt fR' hfR' t hts hte
      rcases Nat.eq_or_lt_of_le hmm' with heq | hlt
      · subst heq
        have hfReq : fR' = fR := by
          rw [hfR] at hfR'
          exact (Option.some_inj.mp hfR').symm
        have hts' : (t : ℤ) < segStart l (tomo.length : ℤ) (m + 1) := by
          rw [segStart_succ]
          exact hte
        rw [houtpres t hts']
        rw [setSlice_getD_mid _ _ _ _ _ (by omega) (by omega) (by omega)]
        rw [hsub]
        rw [kernelSeq_getD _ _ _ _ _ (by rw [hseg_len]; omega)]
        rw [getD_drop_take tomo _ _ _ (by omega)]
        rw [show (segStart l (tomo.length : ℤ) m).toNat +
            (t - (segStart l (tomo.length : ℤ) m).toNat) = t by omega]
        rw [hfReq]
      · exact houtcov m' (by omega) hm'lt fR' hfR' t hts hte

/-! ### Only the first F*q flat frames matter to normalize_nf -/

theorem nfLoop_flats_congr (tomo flats flats' : List Frame) (darkR : Frame)
    (cutoff : Option ℚ) (l : List ℤ) (q : ℕ) (total : ℤ) (ncore nchunk : Option ℕ)
    (hslice : ∀ m < l.length,
      (flats'.drop (m * q)).take ((m + 1) * q - m * q) =
      (flats.drop (m * q)).take ((m + 1) * q - m * q)) :
    ∀ (k : ℕ), ∀ (m : ℕ) (arr : List Frame), m + k = l.length →
      nfLoop tomo flats' darkR cutoff l q total ncore nchunk k m arr =
      nfLoop tomo flats darkR cutoff l q total ncore nchunk k m arr := by
  intro k
  induction k with
  | zero => intro m arr _; rfl
  | succ k ih =>
    intro m arr hmk
    have hmlt : m < l.length := by omega
    simp only [nfLoop]
    rw [hslice m hmlt]
    cases hred : reduceStack npMedian ((flats.drop (m * q)).take ((m + 1) * q - m * q)) with
    | none => rfl
    | some fR => exact ih (m + 1) _ (by omega)

theorem slice_eq_of_take_eq (flats flats' : List Frame) (F q : ℕ)
    (htake : flats'.take (F * q) = flats.take (F * q)) (m : ℕ) (hm : m < F) :
    (flats'.drop (m * q)).take ((m + 1) * q - m * q) =
    (flats.drop (m * q)).take ((m + 1) * q - m * q) := by
  apply List.ext_getElem?
  intro j
  rw [List.getElem?_take, List.getElem?_take]
  by_cases hj : j < (m + 1) * q - m * q
  · rw [if_pos hj, if_pos hj, List.getElem?_drop, List.getElem?_drop]
    have hidx : m * q + j < F * q := by
      have h1 : (m + 1) * q ≤ F * q := Nat.mul_le_mul_right _ (by omega)
      rw [Nat.succ_mul] at h1 hj
      omega
    calc flats'[m * q + j]? = (flats'.take (F * q))[m * q + j]? := by
          rw [List.getElem?_take, if_pos hidx]
      _ = (flats.take (F * q))[m * q + j]? := by rw [htake]
      _ = flats[m * q + j]? := by rw [List.getElem?_take, if_pos hidx]
  · rw [if_neg hj, if_neg hj]

theorem normalize_nf_flats_take (tomo flats flats' dark : List Frame) (l : List ℤ)
    (cutoff : Option ℚ) (ncore nchunk : Option ℕ)
    (hlen : flats'.length = flats.length)
    (htake : flats'.take (l.length * (flats.length / l.length)) =
             flats.take (l.length * (flats.length / l.length))) :
    normalize_nf tomo flats' dark l cutoff ncore nchunk =
    normalize_nf tomo flats dark l cutoff ncore nchunk := by
  unfold normalize_nf
  by_cases hF : l.length = 0
  · rw [if_pos hF, if_pos hF]
  · rw [if_neg hF, if_neg hF]
    cases hd : reduceStack npMedian dark with
    | none => rfl
    | some dR =>
      rw [hlen]
      exact nfLoop_flats_congr tomo flats flats' dR cutoff l _ _ ncore nchunk
        (slice_eq_of_take_eq flats flats' l.length _ htake) l.length 0 (zerosLike tomo)
        (by omega)

/-! ### Claim theorems -/

/-- C1 (counterexample): the claim states that with `flat_location = [0, 10, 25]`
and `total_tomogram_frames = 30` the first segment is `[0, 5)`; in the code the
first segment end is `(10 - 0 - 1) // 2 + 0 = 4`, not `5`, so neither the first
segment's end nor the second segment's start is `5`. -/
theorem C1_counterexample :
    segEnd [0, 10, 25] 30 0 ≠ 5 ∧ segStart [0, 10, 25] 30 1 ≠ 5 := by
  decide

/-- C1 (amended): with `flat_location = [0, 10, 25]` and
`total_tomogram_frames = 30`, `normalize_nf` assigns segment `[0, 4)` to flat 0
(`0 + (10 - 0 - 1) // 2 = 4`), segment `[4, 17)` to flat 1
(`10 + (25 - 10 - 1) // 2 = 17`), and segment `[17, 30)` to flat 2. -/
theorem C1_segments :
    segStart [0, 10, 25] 30 0 = 0 ∧ segEnd [0, 10, 25] 30 0 = 4 ∧
    segStart [0, 10, 25] 30 1 = 4 ∧ segEnd [0, 10, 25] 30 1 = 17 ∧
    segStart [0, 10, 25] 30 2 = 17 ∧ segEnd [0, 10, 25] 30 2 = 30 := by
  decide

/-- C2 (counterexample): with `flat_location = [0, 10]` and 30 tomogram frames,
frame 4 lies in segment 1 (normalized with the flat acquired at frame 10)
although it is strictly closer to the flat acquired at frame 0 (distance 4
versus 6); and the exact tie frame 5 also lies in segment 1, i.e. ties go to
the later flat, not the earlier one.  So the boundary formula does not assign
every frame to the temporally closest flat with ties toward the earlier flat. -/
theorem C2_counterexample :
    segEnd [0, 10] 30 0 ≤ 4 ∧ segStart [0, 10] 30 1 ≤ 4 ∧
    (4 : ℤ) < segEnd [0, 10] 30 1 ∧ (4 : ℤ) - 0 < 10 - 4 ∧
    segEnd [0, 10] 30 0 ≤ 5 ∧ (5 : ℤ) < segEnd [0, 10] 30 1 ∧
    (5 : ℤ) - 0 = 10 - 5 := by
  decide

/-- C2 (amended): in `normalize_nf`, for strictly increasing `flat_location`,
segment `m` ends at `loc + (flat_location[m+1] - loc - 1) // 2` (and at
`total_tomogram_frames` for the last flat).  This boundary sits one below the
floor midpoint, so while every frame at or after its segment's flat location is
strictly closer to that flat than to the next one, frames just before the next
flat location can be assigned to the later flat even when the earlier one is
strictly closer, and exact ties go to the later flat. -/
theorem C2_boundary_formula (l : List ℤ) (total : ℤ)
    (hmono : ∀ i < l.length - 1, l.getD i 0 < l.getD (i + 1) 0) :
    (∀ m, m + 1 < l.length →
       segEnd l total m =
         l.getD m 0 + Int.fdiv (l.getD (m + 1) 0 - l.getD m 0 - 1) 2) ∧
    (∀ m, l.length - 1 ≤ m → segEnd l total m = total) ∧
    (∀ m t, m + 1 < l.length → l.getD m 0 ≤ t → t < segEnd l total m →
       t - l.getD m 0 < l.getD (m + 1) 0 - t) := by
  refine ⟨?_, ?_, ?_⟩
  · intro m hm
    rw [segEnd_formula l total m hm]
    ring
  · intro m hm
    exact segEnd_last l total m hm
  · intro m t hm hloc hte
    rw [segEnd_formula_ediv l total m hm] at hte
    have hd := hmono m (by omega)
    omega

/-- C2 (witness): the amended boundary statement applied to
`flat_location = [0, 10, 25]` with 30 tomogram frames. -/
theorem C2_boundary_formula_witness :
    (∀ i < ([0, 10, 25] : List ℤ).length - 1,
       ([0, 10, 25] : List ℤ).getD i 0 < ([0, 10, 25] : List ℤ).getD (i + 1) 0) ∧
    ((∀ m, m + 1 < ([0, 10, 25] : List ℤ).length →
       segEnd [0, 10, 25] 30 m =
         ([0, 10, 25] : List ℤ).getD m 0 +
           Int.fdiv (([0, 10, 25] : List ℤ).getD (m + 1) 0 -
             ([0, 10, 25] : List ℤ).getD m 0 - 1) 2) ∧
    (∀ m, ([0, 10, 25] : List ℤ).length - 1 ≤ m → segEnd [0, 10, 25] 30 m = 30) ∧
    (∀ m t, m + 1 < ([0, 10, 25] : List ℤ).length →
       ([0, 10, 25] : List ℤ).getD m 0 ≤ t → t < segEnd [0, 10, 25] 30 m →
       t - ([0, 10, 25] : List ℤ).getD m 0 < ([0, 10, 25] : List ℤ).getD (m + 1) 0 - t)) :=
  ⟨by decide, C2_boundary_formula [0, 10, 25] 30 (by decide)⟩

/-- C3: for every strictly increasing `flat_location` of length `F ≥ 1` with
values in `[0, total)`, the `F` segments computed by `normalize_nf` are
contiguous half-open ranges (each segment starts where the previous one ends,
the first starts at 0, the last ends at `total`), each is well formed
(`start ≤ end`), and every frame index of `[0, total)` lies in exactly one
segment, so every tomogram frame is written exactly once into the output. -/
theorem C3_segment_partition (l : List ℤ) (total : ℤ) (hF : 0 < l.length)
    (hmono : ∀ i < l.length - 1, l.getD i 0 < l.getD (i + 1) 0)
    (hrange : ∀ i < l.length, 0 ≤ l.getD i 0 ∧ l.getD i 0 < total) :
    segStart l total 0 = 0 ∧
    (∀ m, segStart l total (m + 1) = segEnd l total m) ∧
    segEnd l total (l.length - 1) = total ∧
    (∀ m < l.length, segStart l total m ≤ segEnd l total m) ∧
    (∀ t : ℤ, 0 ≤ t → t < total →
       ∃! m, m < l.length ∧ segStart l total m ≤ t ∧ t < segEnd l total m) := by
  refine ⟨segStart_zero l total, segStart_succ l total, segEnd_last l total _ le_rfl,
    ?_, ?_⟩
  · intro m hm
    exact segStart_le_segEnd l total hmono hrange m hm
  · intro t h0 ht
    exact segment_exists_unique l total hF hmono hrange t h0 ht

/-- C3 (witness): the partition property applied to `flat_location =
[0, 10, 25]` with 30 tomogram frames. -/
theorem C3_segment_partition_witness :
    (0 < ([0, 10, 25] : List ℤ).length ∧
     (∀ i < ([0, 10, 25] : List ℤ).length - 1,
        ([0, 10, 25] : List ℤ).getD i 0 < ([0, 10, 25] : List ℤ).getD (i + 1) 0) ∧
     (∀ i < ([0, 10, 25] : List ℤ).length,
        0 ≤ ([0, 10, 25] : List ℤ).getD i 0 ∧ ([0, 10, 25] : List ℤ).getD i 0 < 30)) ∧
    (segStart [0, 10, 25] 30 0 = 0 ∧
     (∀ m, segStart [0, 10, 25] 30 (m + 1) = segEnd [0, 10, 25] 30 m) ∧
     segEnd [0, 10, 25] 30 (([0, 10, 25] : List ℤ).length - 1) = 30 ∧
     (∀ m < ([0, 10, 25] : List ℤ).length,
        segStart [0, 10, 25] 30 m ≤ segEnd [0, 10, 25] 30 m) ∧
     (∀ t : ℤ, 0 ≤ t → t < 30 →
        ∃! m, m < ([0, 10, 25] : List ℤ).length ∧
          segStart [0, 10, 25] 30 m ≤ t ∧ t < segEnd [0, 10, 25] 30 m)) :=
  ⟨⟨by decide, by decide, by decide⟩,
    C3_segment_partition [0, 10, 25] 30 (by decide) (by decide) (by decide)⟩

/-- C4: in the numeric kernel, at a pixel where the reduced flat equals the
reduced dark, the zero denominator is replaced by the fixed epsilon `1e-6`
before dividing, the guarded denominator is never zero (so, modelling float
samples as exact rationals, the division is well defined and can produce
neither NaN nor infinity), and the corrected value at the pixel equals
`(projection - dark) / 1e-6`. -/
theorem C4_zero_division_guard (p f d : ℚ) (h : f = d) :
    guardPixel (f - d) = EPS ∧ guardPixel (f - d) ≠ 0 ∧
    normFrame (denomOf [[f]] [[d]]) [[d]] none [[p]] = [[(p - d) / EPS]] := by
  subst h
  refine ⟨by simp [guardPixel], by simp [guardPixel, EPS], ?_⟩
  simp [normFrame, denomOf, subFrame, zip2, map2, guardPixel]

/-- C4 (witness): the zero-denominator guard applied to the pixel
`projection = 3`, `flat = dark = 2`. -/
theorem C4_zero_division_guard_witness :
    guardPixel ((2 : ℚ) - 2) = EPS ∧ guardPixel ((2 : ℚ) - 2) ≠ 0 ∧
    normFrame (denomOf [[(2 : ℚ)]] [[(2 : ℚ)]]) [[(2 : ℚ)]] none [[(3 : ℚ)]] =
      [[((3 : ℚ) - 2) / EPS]] :=
  C4_zero_division_guard 3 2 2 rfl

/-- C5: for every worker-count / chunk-size combination, the dispatched
parallel result of `normalize`'s chunk dispatcher equals the numeric kernel
applied sequentially over every frame index in ascending order
(`_normalize` over the full range, which equals the independent per-frame
map `kernelSeq`).  The fixed-chunk-size policy needs no side condition
(a chunk size that does not divide the frame count just produces a shorter
last chunk, and chunk size 1 and a single whole-volume chunk are special
cases); the worker-count policy needs a positive worker count. -/
theorem C5_chunk_equivalence (s : NState) (cutoff : Option ℚ) (c w : ℕ)
    (vol : List Frame) (fR dR : Frame) (hw : 0 < w) :
    dispatchRanges cutoff (rangesOfSizes 0 (chunkSizes s.tomo.length c)) s =
      _normalize s cutoff 0 s.tomo.length ∧
    dispatchRanges cutoff (rangesOfSizes 0 (spreadSizes s.tomo.length w)) s =
      _normalize s cutoff 0 s.tomo.length ∧
    (_normalize s cutoff 0 s.tomo.length).tomo = kernelSeq s.flat s.dark cutoff s.tomo ∧
    distribute_jobs fR dR cutoff (some w) (some c) vol = kernelSeq fR dR cutoff vol ∧
    distribute_jobs fR dR cutoff (some w) none vol = kernelSeq fR dR cutoff vol := by
  have hcore : (some w : Option ℕ) ≠ some 0 := by
    intro hcontra
    rw [Option.some_inj] at hcontra
    omega
  refine ⟨?_, ?_, _normalize_tomo_eq_kernelSeq s cutoff,
    distribute_jobs_eq_kernelSeq fR dR cutoff _ _ vol hcore,
    distribute_jobs_eq_kernelSeq fR dR cutoff _ _ vol hcore⟩
  · rw [dispatchRanges_ofSizes, chunkSizes_sum, Nat.zero_add]
  · rw [dispatchRanges_ofSizes, spreadSizes_sum _ _ hw, Nat.zero_add]

/-- C5 (witness): chunk-partition equivalence on a concrete three-frame
volume, worker count 2 and chunk size 2 (which does not divide 3). -/
theorem C5_chunk_equivalence_witness :
    (0 < 2) ∧
    (dispatchRanges none
        (rangesOfSizes 0 (chunkSizes (NState.tomo ⟨[[[8]], [[6]], [[4]]], [[2]], [[0]]⟩).length 2))
        ⟨[[[8]], [[6]], [[4]]], [[2]], [[0]]⟩ =
      _normalize ⟨[[[8]], [[6]], [[4]]], [[2]], [[0]]⟩ none 0
        (NState.tomo ⟨[[[8]], [[6]], [[4]]], [[2]], [[0]]⟩).length ∧
    dispatchRanges none
        (rangesOfSizes 0 (spreadSizes (NState.tomo ⟨[[[8]], [[6]], [[4]]], [[2]], [[0]]⟩).length 2))
        ⟨[[[8]], [[6]], [[4]]], [[2]], [[0]]⟩ =
      _normalize ⟨[[[8]], [[6]], [[4]]], [[2]], [[0]]⟩ none 0
        (NState.tomo ⟨[[[8]], [[6]], [[4]]], [[2]], [[0]]⟩).length ∧
    (_normalize ⟨[[[8]], [[6]], [[4]]], [[2]], [[0]]⟩ none 0
        (NState.tomo ⟨[[[8]], [[6]], [[4]]], [[2]], [[0]]⟩).length).tomo =
      kernelSeq [[2]] [[0]] none [[[8]], [[6]], [[4]]] ∧
    distribute_jobs [[2]] [[0]] none (some 2) (some 2) [[[8]], [[6]], [[4]]] =
      kernelSeq [[2]] [[0]] none [[[8]], [[6]], [[4]]] ∧
    distribute_jobs [[2]] [[0]] none (some 2) none [[[8]], [[6]], [[4]]] =
      kernelSeq [[2]] [[0]] none [[[8]], [[6]], [[4]]]) :=
  ⟨by decide,
    C5_chunk_equivalence ⟨[[[8]], [[6]], [[4]]], [[2]], [[0]]⟩ none 2 2
      [[[8]], [[6]], [[4]]] [[2]] [[0]] (by decide)⟩

/-- C6: plain `normalize` reduces both the flat stack and the dark stack to
reference frames via the arithmetic mean along the frame axis and dispatches
the kernel with exactly those references, while `normalize_nf` reduces its
calibration frames via the median, with the dark reference computed exactly
once over the entire dark stack before segmentation begins (the same reduced
dark frame is passed, fixed, to every loop iteration).  The reducers are the
genuine statistics: `npMean` of three samples is their arithmetic mean, and
`npMedian` picks the middle value of three (in any order) and averages the two
middle values of an even-length list. -/
theorem C6_reduction_statistics (tomo flats darks : List Frame) (cutoff : Option ℚ)
    (ncore nchunk : Option ℕ) (flat_loc : List ℤ) (fR dR dR' : Frame) (a b c : ℚ)
    (hfR : reduceStack npMean flats = some fR)
    (hdR : reduceStack npMean darks = some dR)
    (hnf : flat_loc ≠ [])
    (hdR' : reduceStack npMedian darks = some dR')
    (hab : a < b) (hbc : b < c) :
    normalize tomo flats darks cutoff ncore nchunk =
      some (distribute_jobs fR dR cutoff ncore nchunk tomo) ∧
    normalize_nf tomo flats darks flat_loc cutoff ncore nchunk =
      nfLoop tomo flats dR' cutoff flat_loc (flats.length / flat_loc.length)
        (tomo.length : ℤ) ncore nchunk flat_loc.length 0 (zerosLike tomo) ∧
    npMean [a, b, c] = some ((a + b + c) / 3) ∧
    npMedian [b, a, c] = some b ∧
    npMedian [b, a] = some ((a + b) / 2) := by
  have h0 : flat_loc.length ≠ 0 := fun h => hnf (List.length_eq_zero.mp h)
  refine ⟨?_, ?_, npMean_three a b c, npMedian_three a b c hab hbc,
    npMedian_two a b hab.le⟩
  · unfold normalize
    rw [hfR, hdR]
  · unfold normalize_nf
    rw [if_neg h0, hdR']

/-- C6 (witness): the reduction statistics applied to one-pixel stacks — the
mean references for `normalize`, the fixed median dark reference for
`normalize_nf`, and the statistics at samples 1 < 2 < 3. -/
theorem C6_reduction_statistics_witness :
    (reduceStack npMean [[[10]]] = some [[10]] ∧
     reduceStack npMean [[[0]], [[2]]] = some [[1]] ∧
     ([0] : List ℤ) ≠ [] ∧
     reduceStack npMedian [[[0]], [[2]]] = some [[1]] ∧
     (1 : ℚ) < 2 ∧ (2 : ℚ) < 3) ∧
    (normalize [[[5]]] [[[10]]] [[[0]], [[2]]] none none none =
       some (distribute_jobs [[10]] [[1]] none none none [[[5]]]) ∧
     normalize_nf [[[5]]] [[[10]]] [[[0]], [[2]]] [0] none none none =
       nfLoop [[[5]]] [[[10]]] [[1]] none [0]
         (([[[10]]] : List Frame).length / ([0] : List ℤ).length)
         ((([[[5]]] : List Frame).length : ℤ)) none none ([0] : List ℤ).length 0
         (zerosLike [[[5]]]) ∧
     npMean [1, 2, 3] = some ((1 + 2 + 3) / 3) ∧
     npMedian [2, 1, 3] = some 2 ∧
     npMedian [2, 1] = some ((1 + 2) / 2)) :=
  ⟨⟨by norm_num [reduceStack, stackTranspose, zipCons, optMap, npMean],
    by norm_num [reduceStack, stackTranspose, zipCons, optMap, npMean],
    by decide,
    by norm_num [reduceStack, stackTranspose, zipCons, optMap, npMedian, sortQ,
      List.insertionSort, List.orderedInsert],
    by norm_num, by norm_num⟩,
    C6_reduction_statistics [[[5]]] [[[10]]] [[[0]], [[2]]] none none none [0]
      [[10]] [[1]] [[1]] 1 2 3
      (by norm_num [reduceStack, stackTranspose, zipCons, optMap, npMean])
      (by norm_num [reduceStack, stackTranspose, zipCons, optMap, npMean])
      (by decide)
      (by norm_num [reduceStack, stackTranspose, zipCons, optMap, npMedian, sortQ,
        List.insertionSort, List.orderedInsert])
      (by norm_num) (by norm_num)⟩

/-- C7: in `normalize_nf` with `F` flat locations, with
`q = total_flat_frames // F`, (1) the flat stack is partitioned into `F`
equal-length runs of `q` frames each (`flats[m*q : (m+1)*q]` has length `q`);
(2) any flat frames beyond the last full run never influence the output
(replacing them arbitrarily, keeping the stack length, leaves the output
unchanged); and (3) the call succeeds and, on segment `m`, every output frame
is the kernel output computed from the elementwise median of run `m` (and the
shared median dark reference). -/
theorem C7_flat_runs (tomo flats dark : List Frame) (l : List ℤ) (cutoff : Option ℚ)
    (ncore nchunk : Option ℕ)
    (hF : 0 < l.length)
    (hmono : ∀ i < l.length - 1, l.getD i 0 < l.getD (i + 1) 0)
    (hrange : ∀ i < l.length, 0 ≤ l.getD i 0 ∧ l.getD i 0 < (tomo.length : ℤ))
    (hq : l.length ≤ flats.length)
    (hdark : dark ≠ [])
    (hcore : ncore ≠ some 0) :
    (∀ m < l.length,
       ((flats.drop (m * (flats.length / l.length))).take
         ((m + 1) * (flats.length / l.length) - m * (flats.length / l.length))).length =
       flats.length / l.length) ∧
    (∀ flats', flats'.length = flats.length →
       flats'.take (l.length * (flats.length / l.length)) =
         flats.take (l.length * (flats.length / l.length)) →
       normalize_nf tomo flats' dark l cutoff ncore nchunk =
         normalize_nf tomo flats dark l cutoff ncore nchunk) ∧
    (∃ out, normalize_nf tomo flats dark l cutoff ncore nchunk = some out ∧
       out.length = tomo.length ∧
       ∀ m, m < l.length →
         ∀ fR, reduceStack npMedian ((flats.drop (m * (flats.length / l.length))).take
             ((m + 1) * (flats.length / l.length) - m * (flats.length / l.length))) =
             some fR →
         ∀ dR, reduceStack npMedian dark = some dR →
         ∀ t : ℕ, segStart l (tomo.length : ℤ) m ≤ (t : ℤ) →
           (t : ℤ) < segEnd l (tomo.length : ℤ) m →
           out.getD t [] = normFrame (denomOf fR dR) dR cutoff (tomo.getD t [])) := by
  have hFq : l.length * (flats.length / l.length) ≤ flats.length := by
    rw [Nat.mul_comm]
    exact Nat.div_mul_le_self flats.length l.length
  refine ⟨?_, ?_, ?_⟩
  · intro m hm
    have hsz : (m + 1) * (flats.length / l.length) - m * (flats.length / l.length) =
        flats.length / l.length := by
      rw [Nat.succ_mul]
      exact Nat.add_sub_cancel_left _ _
    have h1 : (m + 1) * (flats.length / l.length) ≤
        l.length * (flats.length / l.length) :=
      Nat.mul_le_mul_right _ (by omega)
    rw [Nat.succ_mul] at h1
    rw [hsz]
    exact length_drop_take _ _ _ (le_trans h1 hFq)
  · intro flats' h1 h2
    exact normalize_nf_flats_take tomo flats flats' dark l cutoff ncore nchunk h1 h2
  · have h0 : ¬ l.length = 0 := by omega
    obtain ⟨dR₀, hdR₀⟩ := reduceStack_npMedian_ne_none dark hdark
    obtain ⟨out, hout, hlen, _, hcov⟩ :=
      nfLoop_spec tomo flats dR₀ cutoff l ncore nchunk hmono hrange hq hcore
        l.length 0 (zerosLike tomo) (by omega) (by simp [zerosLike])
    refine ⟨out, ?_, hlen, ?_⟩
    · unfold normalize_nf
      rw [if_neg h0, hdR₀]
      exact hout
    · intro m hm fR hfR dR hdR t hts hte
      have hdd : dR = dR₀ := by
        rw [hdR₀] at hdR
        exact (Option.some_inj.mp hdR).symm
      subst hdd
      exact hcov m (Nat.zero_le m) hm fR hfR t hts hte

/-- C7 (witness): the run partition and per-segment median references on a
four-frame tomogram with flats at locations 0 and 3 and one flat run each. -/
theorem C7_flat_runs_witness :
    (0 < ([0, 3] : List ℤ).length ∧
     ([0, 3] : List ℤ).length ≤ ([[[2]], [[4]]] : List Frame).length ∧
     ([[[0]]] : List Frame) ≠ [] ∧
     (none : Option ℕ) ≠ some 0) ∧
    ((∀ m < ([0, 3] : List ℤ).length,
       ((([[[2]], [[4]]] : List Frame).drop
           (m * (([[[2]], [[4]]] : List Frame).length / ([0, 3] : List ℤ).length))).take
         ((m + 1) * (([[[2]], [[4]]] : List Frame).length / ([0, 3] : List ℤ).length) -
           m * (([[[2]], [[4]]] : List Frame).length / ([0, 3] : List ℤ).length))).length =
       ([[[2]], [[4]]] : List Frame).length / ([0, 3] : List ℤ).length) ∧
    (∀ flats', flats'.length = ([[[2]], [[4]]] : List Frame).length →
       flats'.take (([0, 3] : List ℤ).length *
           (([[[2]], [[4]]] : List Frame).length / ([0, 3] : List ℤ).length)) =
         ([[[2]], [[4]]] : List Frame).take (([0, 3] : List ℤ).length *
           (([[[2]], [[4]]] : List Frame).length / ([0, 3] : List ℤ).length)) →
       normalize_nf [[[8]], [[8]], [[8]], [[8]]] flats' [[[0]]] [0, 3] none none none =
         normalize_nf [[[8]], [[8]], [[8]], [[8]]] [[[2]], [[4]]] [[[0]]] [0, 3]
           none none none) ∧
    (∃ out, normalize_nf [[[8]], [[8]], [[8]], [[8]]] [[[2]], [[4]]] [[[0]]] [0, 3]
         none none none = some out ∧
       out.length = ([[[8]], [[8]], [[8]], [[8]]] : List Frame).length ∧
       ∀ m, m < ([0, 3] : List ℤ).length →
         ∀ fR, reduceStack npMedian ((([[[2]], [[4]]] : List Frame).drop
             (m * (([[[2]], [[4]]] : List Frame).length / ([0, 3] : List ℤ).length))).take
             ((m + 1) * (([[[2]], [[4]]] : List Frame).length / ([0, 3] : List ℤ).length) -
               m * (([[[2]], [[4]]] : List Frame).length / ([0, 3] : List ℤ).length))) =
             some fR →
         ∀ dR, reduceStack npMedian [[[0]]] = some dR →
         ∀ t : ℕ,
           segStart [0, 3] ((([[[8]], [[8]], [[8]], [[8]]] : List Frame).length : ℤ)) m ≤
             (t : ℤ) →
           (t : ℤ) <
             segEnd [0, 3] ((([[[8]], [[8]], [[8]], [[8]]] : List Frame).length : ℤ)) m →
           out.getD t [] = normFrame (denomOf fR dR) dR none
             (([[[8]], [[8]], [[8]], [[8]]] : List Frame).getD t []))) :=
  ⟨⟨by decide, by decide, by decide, by decide⟩,
    C7_flat_runs [[[8]], [[8]], [[8]], [[8]]] [[[2]], [[4]]] [[[0]]] [0, 3] none
      none none (by decide) (by decide) (by decide) (by decide) (by decide)
      (by decide)⟩

/-- C8 (counterexample): the numeric kernel is not idempotent — on the
one-pixel volume with projection 8, flat 2, dark 0 and cutoff 10, one kernel
application yields 4 and a second application yields 2, because the kernel
divides again; only the clamp stage is idempotent. -/
theorem C8_counterexample :
    (_normalize (_normalize ⟨[[[8]]], [[2]], [[0]]⟩ (some 10) 0 1) (some 10) 0 1).tomo ≠
    (_normalize ⟨[[[8]]], [[2]], [[0]]⟩ (some 10) 0 1).tomo := by
  have h1 : (_normalize ⟨[[[8]]], [[2]], [[0]]⟩ (some 10) 0 1).tomo = [[[4]]] := by
    have := _normalize_tomo_eq_kernelSeq ⟨[[[8]]], [[2]], [[0]]⟩ (some 10)
    norm_num [kernelSeq, normFrame, denomOf, subFrame, zip2, map2, guardPixel,
      clampPixel] at this
    exact this
  have hlen : (_normalize ⟨[[[8]]], [[2]], [[0]]⟩ (some 10) 0 1).tomo.length = 1 := by
    rw [h1]
    rfl
  have h2 := _normalize_tomo_eq_kernelSeq
    (_normalize ⟨[[[8]]], [[2]], [[0]]⟩ (some 10) 0 1) (some 10)
  rw [hlen] at h2
  rw [_normalize_flat, _normalize_dark, h1] at h2
  norm_num [kernelSeq, normFrame, denomOf, subFrame, zip2, map2, guardPixel,
    clampPixel] at h2
  rw [h2, h1]
  norm_num

/-- C8 (amended): applying the cutoff clamp stage of the kernel twice with the
same cutoff yields the same result as applying it once (clamping is
idempotent, both per pixel and elementwise on whole frames), and the clamp
sets every corrected element exceeding the cutoff to the cutoff value while
leaving values at or below the cutoff, including negative values, untouched;
the full kernel (which divides by the guarded denominator again) is not
idempotent. -/
theorem C8_clamp_idempotent (cutoff v : ℚ) (fr : Frame) :
    clampPixel cutoff (clampPixel cutoff v) = clampPixel cutoff v ∧
    (cutoff < v → clampPixel cutoff v = cutoff) ∧
    (v ≤ cutoff → clampPixel cutoff v = v) ∧
    map2 (clampPixel cutoff) (map2 (clampPixel cutoff) fr) =
      map2 (clampPixel cutoff) fr := by
  have hid : ∀ x : ℚ, clampPixel cutoff (clampPixel cutoff x) = clampPixel cutoff x := by
    intro x
    unfold clampPixel
    by_cases h : cutoff < x
    · rw [if_pos h]
      simp
    · rw [if_neg h, if_neg h]
  refine ⟨hid v, ?_, ?_, ?_⟩
  · intro h
    simp [clampPixel, h]
  · intro h
    simp [clampPixel, not_lt.mpr h]
  · simp only [map2, List.map_map, Function.comp]
    simp [hid]

/-- C8 (witness): clamp idempotence and the one-sided clamp at cutoff 1 on the
value 2 and the frame `[[3, -5]]`. -/
theorem C8_clamp_idempotent_witness :
    clampPixel 1 (clampPixel 1 2) = clampPixel 1 2 ∧
    ((1 : ℚ) < 2 → clampPixel 1 2 = 1) ∧
    ((2 : ℚ) ≤ 1 → clampPixel 1 2 = 2) ∧
    map2 (clampPixel 1) (map2 (clampPixel 1) [[3, -5]]) =
      map2 (clampPixel 1) [[3, -5]] :=
  C8_clamp_idempotent 1 2 [[3, -5]]

/-- C9: a call `_normalize(flat, dark, cutoff, istart, iend)` leaves the flat
and dark inputs unchanged (the guarded denominator is built in a fresh array),
preserves the frame count of the shared tomogram, and leaves every tomogram
frame outside `[istart, iend)` unchanged. -/
theorem C9_frame_effect (s : NState) (cutoff : Option ℚ) (istart iend m : ℕ)
    (h : m < istart ∨ iend ≤ m) :
    (_normalize s cutoff istart iend).flat = s.flat ∧
    (_normalize s cutoff istart iend).dark = s.dark ∧
    (_normalize s cutoff istart iend).tomo.length = s.tomo.length ∧
    (_normalize s cutoff istart iend).tomo.getD m [] = s.tomo.getD m [] :=
  ⟨rfl, rfl, _normalize_tomo_length s cutoff istart iend,
    _normalize_getD_outside s cutoff istart iend m h⟩

/-- C9 (witness): the frame effect of `_normalize` over `[1, 2)` on a
three-frame volume — frame 0 is outside the range and is untouched. -/
theorem C9_frame_effect_witness :
    (0 < 1 ∨ 2 ≤ 0) ∧
    ((_normalize ⟨[[[1]], [[2]], [[3]]], [[2]], [[0]]⟩ none 1 2).flat = [[2]] ∧
     (_normalize ⟨[[[1]], [[2]], [[3]]], [[2]], [[0]]⟩ none 1 2).dark = [[0]] ∧
     (_normalize ⟨[[[1]], [[2]], [[3]]], [[2]], [[0]]⟩ none 1 2).tomo.length =
       ([[[1]], [[2]], [[3]]] : List Frame).length ∧
     (_normalize ⟨[[[1]], [[2]], [[3]]], [[2]], [[0]]⟩ none 1 2).tomo.getD 0 [] =
       ([[[1]], [[2]], [[3]]] : List Frame).getD 0 []) :=
  ⟨Or.inl (by decide),
    C9_frame_effect ⟨[[[1]], [[2]], [[3]]], [[2]], [[0]]⟩ none 1 2 0
      (Or.inl (by decide))⟩

end Tomopy
